import Mathlib

/-
  Verification development for the GoingSecure cipher library
  (C++ headers under GoingSecure/include).

  Embedding conventions:
  - text and byte buffers (std::string, std::vector of uint8_t) become
    List Nat, one Nat per byte value;
  - machine words and std::bitset values become Nat, with explicit
    reductions modulo powers of two wherever the C++ types truncate;
  - bit access bs[i] on a bitset becomes Nat.testBit;
  - arithmetic the C++ performs on int is carried out on Int where the
    intermediate value could be negative;
  - fallible operations return Option or Except.
-/

namespace GoingSecure

/-- Value of a bit pattern written into positions 0..w-1 of a bitset that
started as all zeroes: position i receives the bit f i. -/
def bitsToNat (f : Nat → Bool) : Nat → Nat
  | 0 => 0
  | n + 1 => bitsToNat f n + (if f n then 2 ^ n else 0)

theorem bitsToNat_lt (f : Nat → Bool) : ∀ n, bitsToNat f n < 2 ^ n
  | 0 => by simp [bitsToNat]
  | n + 1 => by
    have h := bitsToNat_lt f n
    have h2 : 2 ^ (n + 1) = 2 ^ n + 2 ^ n := by rw [pow_succ]; omega
    by_cases hf : f n <;> simp [bitsToNat, hf] <;> omega

/-- Writing the bits of x back into a w-bit bitset keeps exactly x mod 2 to
the w. -/
theorem bitsToNat_testBit (x : Nat) : ∀ n, bitsToNat (fun i => x.testBit i) n = x % 2 ^ n
  | 0 => by simp [bitsToNat, Nat.mod_one]
  | n + 1 => by
    have ih := bitsToNat_testBit x n
    have hsplit : x % 2 ^ (n + 1) = x % 2 ^ n + 2 ^ n * (x / 2 ^ n % 2) := by
      rw [pow_succ]
      exact Nat.mod_mul
    have htb : x.testBit n = decide (x / 2 ^ n % 2 = 1) := Nat.testBit_to_div_mod
    rcases Nat.mod_two_eq_zero_or_one (x / 2 ^ n) with h2 | h2 <;>
      simp [bitsToNat, ih, hsplit, htb, h2]

/-- Low 32-bit half of the 64-bit combination (r shifted left 32) or l. -/
theorem combine_mod (r l : Nat) (hl : l < 2 ^ 32) :
    ((r <<< 32) ||| l) % 2 ^ 32 = l := by
  apply Nat.eq_of_testBit_eq
  intro i
  rw [Nat.testBit_mod_two_pow, Nat.testBit_lor, Nat.testBit_shiftLeft]
  rcases lt_or_ge i 32 with h | h
  · have : ¬(i ≥ 32) := by omega
    simp [h, this]
  · have hlb : l.testBit i = false :=
      Nat.testBit_lt_two_pow (lt_of_lt_of_le hl (Nat.pow_le_pow_right (by norm_num) h))
    have : ¬(i < 32) := by omega
    simp [this, hlb]

/-- High 32-bit half of the 64-bit combination (r shifted left 32) or l. -/
theorem combine_shiftRight (r l : Nat) (hl : l < 2 ^ 32) :
    ((r <<< 32) ||| l) >>> 32 = r := by
  apply Nat.eq_of_testBit_eq
  intro i
  rw [Nat.testBit_shiftRight, Nat.testBit_lor, Nat.testBit_shiftLeft]
  have hge : 32 + i ≥ 32 := by omega
  have hsub : 32 + i - 32 = i := by omega
  have hlb : l.testBit (32 + i) = false :=
    Nat.testBit_lt_two_pow (lt_of_lt_of_le hl (Nat.pow_le_pow_right (by norm_num) (by omega)))
  simp [hge, hsub, hlb]

/-- Splitting a value into its high and low 32-bit halves and recombining
them is the identity. -/
theorem split_combine (x : Nat) :
    ((x >>> 32) <<< 32) ||| (x % 2 ^ 32) = x := by
  apply Nat.eq_of_testBit_eq
  intro i
  rw [Nat.testBit_lor, Nat.testBit_shiftLeft, Nat.testBit_mod_two_pow]
  rcases lt_or_ge i 32 with h | h
  · have : ¬(i ≥ 32) := by omega
    simp [h, this]
  · have hsub : 32 + (i - 32) = i := by omega
    have : ¬(i < 32) := by omega
    simp [h, this, Nat.testBit_shiftRight, hsub]

theorem combine_lt (r l : Nat) (hr : r < 2 ^ 32) (hl : l < 2 ^ 32) :
    (r <<< 32) ||| l < 2 ^ 64 := by
  apply Nat.or_lt_two_pow
  · rw [Nat.shiftLeft_eq]
    calc r * 2 ^ 32 < 2 ^ 32 * 2 ^ 32 := by
          exact Nat.mul_lt_mul_of_lt_of_le hr (le_refl _) (by norm_num)
      _ = 2 ^ 64 := by norm_num
  · exact lt_of_lt_of_le hl (by norm_num)

/-! ## DES (include/DES.h)

A simplified DES: identity initial and final permutations, subkeys obtained
by shifting the key, reduced tables. -/

namespace DES

/-- Tabla de expansion E (DES.h line 171). -/
def EXPANSION_TABLE : List Nat :=
  [32, 1, 2, 3, 4, 5,
    4, 5, 6, 7, 8, 9,
    8, 9, 10, 11, 12, 13,
   12, 13, 14, 15, 16, 17,
   16, 17, 18, 19, 20, 21,
   20, 21, 22, 23, 24, 25,
   24, 25, 26, 27, 28, 29,
   28, 29, 30, 31, 32, 1]

/-- Tabla de permutacion P (DES.h line 183). -/
def P_TABLE : List Nat :=
  [16, 7, 20, 21, 29, 12, 28, 17,
    1, 15, 23, 26, 5, 18, 31, 10,
    2, 8, 24, 14, 32, 27, 3, 9,
   19, 13, 30, 6, 22, 11, 4, 25]

/-- S-Box de demostracion (DES.h line 191). -/
def SBOX : List (List Nat) :=
  [[14, 4, 13, 1, 2, 15, 11, 8, 3, 10, 6, 12, 5, 9, 0, 7],
   [0, 15, 7, 4, 14, 2, 13, 1, 10, 6, 12, 11, 9, 5, 3, 8],
   [4, 1, 14, 8, 13, 6, 2, 11, 15, 12, 9, 7, 3, 10, 5, 0],
   [15, 12, 8, 2, 4, 9, 1, 7, 5, 11, 3, 14, 10, 0, 6, 13]]

/-- DES::generateSubkeys: subkey i is (key shifted right by i) masked to 48
bits. The C++ builds the list for i = 0..15; we expose it as a function of
the round index. -/
def subkey (key : Nat) (i : Nat) : Nat :=
  (key >>> i) &&& 0xFFFFFFFFFFFF

/-- DES::iPermutation: copies bits 0..63 of the input bitset, i.e. the
identity on 64-bit values. -/
def iPermutation (input : Nat) : Nat :=
  bitsToNat (fun i => input.testBit i) 64

/-- DES::fPermutation: identical to iPermutation. -/
def fPermutation (input : Nat) : Nat :=
  bitsToNat (fun i => input.testBit i) 64

/-- DES::expand: output bit i is halfBlock bit (32 - EXPANSION_TABLE i). -/
def expand (halfBlock : Nat) : Nat :=
  bitsToNat (fun i => halfBlock.testBit (32 - EXPANSION_TABLE.getD i 0)) 48

/-- SBOX lookup SBOX row col, with the row mod 4 and col mod 16 reductions
done at their use sites as in the source. -/
def sboxAt (row col : Nat) : Nat :=
  (SBOX.getD row []).getD col 0

/-- DES::substitute: for each of the 8 groups i the row is
input bit 6i (high) with input bit 6i+5 (low), the column is formed from
input bits 6i+1 .. 6i+4, and the looked-up value's four bits are emitted
MSB-first into output positions 4i .. 4i+3. Output position p = 4i + j
therefore holds bit (3 - j) of the value. -/
def substitute (input : Nat) : Nat :=
  bitsToNat (fun p =>
    let i := p / 4
    let j := p % 4
    let row := 2 * (input.testBit (i * 6)).toNat + (input.testBit (i * 6 + 5)).toNat
    let col := 8 * (input.testBit (i * 6 + 1)).toNat + 4 * (input.testBit (i * 6 + 2)).toNat +
               2 * (input.testBit (i * 6 + 3)).toNat + (input.testBit (i * 6 + 4)).toNat
    (sboxAt (row % 4) (col % 16)).testBit (3 - j)) 32

/-- DES::permuteP: output bit i is input bit (32 - P_TABLE i). -/
def permuteP (input : Nat) : Nat :=
  bitsToNat (fun i => input.testBit (32 - P_TABLE.getD i 0)) 32

/-- DES::feistel: expand, xor with the subkey, substitute, permute. -/
def feistel (right subkey : Nat) : Nat :=
  permuteP (substitute (expand right ^^^ subkey))

/-- One round of DES::encode's loop: newRight = left xor feistel right sk;
left becomes right, right becomes newRight. State is (left, right). -/
def encRound (key : Nat) (st : Nat × Nat) (round : Nat) : Nat × Nat :=
  (st.2, st.1 ^^^ feistel st.2 (subkey key round))

/-- DES::encode: identity initial permutation, split into the high half
(left) and low half (right) with the bitset-32 constructors truncating to
32 bits, 16 Feistel rounds, then combine as (right shifted left 32) or left
(a uint64, hence the mod) and apply the identity final permutation. -/
def encode (key plaintext : Nat) : Nat :=
  let data := iPermutation plaintext
  let left := (data >>> 32) % 2 ^ 32
  let right := data % 2 ^ 32
  let st := (List.range 16).foldl (encRound key) (left, right)
  fPermutation (((st.2 <<< 32) ||| st.1) % 2 ^ 64)

/-- Modelled from the spec: one inverse round of the decode sequence that is
absent from the source. For round = 15..0 the spec prescribes
newR = L and newL = R xor Feistel(L, subkey round). State is (left, right). -/
def decRound (key : Nat) (st : Nat × Nat) (round : Nat) : Nat × Nat :=
  (st.2 ^^^ feistel st.1 (subkey key round), st.1)

/-- Modelled from the spec: DES::decode is not implemented in the source
(DES.h line 148 notes decryption is not implemented). The spec prescribes
running rounds 15 down to 0 with newR = L, newL = R xor Feistel(L, subkey
round), combining as (L shifted left 32) or R, and applying the identity
final permutation. For that combination to make sense against encode's
output layout, L starts as the low half and R as the high half of the
ciphertext. -/
def decode (key ciphertext : Nat) : Nat :=
  let data := iPermutation ciphertext
  let left := data % 2 ^ 32
  let right := (data >>> 32) % 2 ^ 32
  let st := (List.range 16).reverse.foldl (decRound key) (left, right)
  fPermutation (((st.1 <<< 32) ||| st.2) % 2 ^ 64)

theorem iPermutation_eq (x : Nat) : iPermutation x = x % 2 ^ 64 :=
  bitsToNat_testBit x 64

theorem fPermutation_eq (x : Nat) : fPermutation x = x % 2 ^ 64 :=
  bitsToNat_testBit x 64

theorem feistel_lt (right sk : Nat) : feistel right sk < 2 ^ 32 :=
  bitsToNat_lt _ 32

/-- A decode round undoes the matching encode round. -/
theorem decRound_encRound (key round : Nat) (st : Nat × Nat) :
    decRound key (encRound key st round) round = st := by
  unfold decRound encRound
  simp [Nat.xor_cancel_right]

/-- The encode rounds keep both halves below 2 to the 32. -/
theorem encFold_bounds (key : Nat) : ∀ (l : List Nat) (st : Nat × Nat),
    st.1 < 2 ^ 32 → st.2 < 2 ^ 32 →
    (l.foldl (encRound key) st).1 < 2 ^ 32 ∧ (l.foldl (encRound key) st).2 < 2 ^ 32
  | [], _, h1, h2 => ⟨h1, h2⟩
  | a :: l, st, h1, h2 => by
    rw [List.foldl_cons]
    exact encFold_bounds key l _ h2 (Nat.xor_lt_two_pow h1 (feistel_lt _ _))

/-- Folding the decode rounds over the reversed round list undoes folding
the encode rounds over the round list. -/
theorem decFold_encFold (key : Nat) : ∀ (l : List Nat) (st : Nat × Nat),
    l.reverse.foldl (decRound key) (l.foldl (encRound key) st) = st
  | [], _ => rfl
  | a :: l, st => by
    have h1 : List.foldl (encRound key) st (a :: l) =
        List.foldl (encRound key) (encRound key st a) l := List.foldl_cons _ _
    rw [List.reverse_cons, List.foldl_append, h1,
      decFold_encFold key l (encRound key st a)]
    simp [decRound_encRound]

end DES

/-- C1: for every 64-bit key and every 64-bit plaintext block, the decode
round sequence prescribed by the spec (rounds 15 down to 0, combining as
(L shifted left 32) or R, identity final permutation) exactly inverts
DES::encode under the same key. -/
theorem des_decode_encode (key p : Nat) (hp : p < 2 ^ 64) :
    DES.decode key (DES.encode key p) = p := by
  have h32pos : (0:Nat) < 2 ^ 32 := by norm_num
  have hsh : p >>> 32 < 2 ^ 32 := by
    rw [Nat.shiftRight_eq_div_pow]
    exact Nat.div_lt_of_lt_mul (by norm_num at hp ⊢; omega)
  obtain ⟨hf1, hf2⟩ :=
    DES.encFold_bounds key (List.range 16) (p >>> 32, p % 2 ^ 32) hsh (Nat.mod_lt _ h32pos)
  set st := (List.range 16).foldl (DES.encRound key) (p >>> 32, p % 2 ^ 32) with hst
  have hcomb : (st.2 <<< 32) ||| st.1 < 2 ^ 64 := combine_lt _ _ hf2 hf1
  have henc : DES.encode key p = (st.2 <<< 32) ||| st.1 := by
    simp only [DES.encode, DES.iPermutation_eq, DES.fPermutation_eq]
    rw [Nat.mod_eq_of_lt hp, Nat.mod_eq_of_lt hsh, ← hst,
      Nat.mod_eq_of_lt hcomb, Nat.mod_eq_of_lt hcomb]
  have hdec : DES.decode key ((st.2 <<< 32) ||| st.1) = p := by
    simp only [DES.decode, DES.iPermutation_eq, DES.fPermutation_eq]
    rw [Nat.mod_eq_of_lt hcomb, combine_mod _ _ hf1, combine_shiftRight _ _ hf1,
      Nat.mod_eq_of_lt hf2]
    have hpair : (st.1, st.2) = st := rfl
    rw [hpair, hst, DES.decFold_encFold key (List.range 16) (p >>> 32, p % 2 ^ 32),
      split_combine p, Nat.mod_eq_of_lt hp, Nat.mod_eq_of_lt hp]
  rw [henc, hdec]

/-- C1 witness: the round trip at the concrete key and block of the spec's
scenario 5. -/
theorem des_decode_encode_witness :
    DES.decode 0x133457799BBCDFF1 (DES.encode 0x133457799BBCDFF1 0x123456789ABCDEF1) =
      0x123456789ABCDEF1 :=
  des_decode_encode 0x133457799BBCDFF1 0x123456789ABCDEF1 (by norm_num)

/-- Subkeys never see key bit 63: rounds use i at most 15 and mask to 48
bits, so positions i + j with j below 48 stay at or below 62. -/
theorem subkey_flip_msb (key : Nat) (i : Nat) (hi : i < 16) :
    DES.subkey (key ^^^ 2 ^ 63) i = DES.subkey key i := by
  unfold DES.subkey
  have hm : (0xFFFFFFFFFFFF : Nat) = 2 ^ 48 - 1 := by norm_num
  rw [hm]
  apply Nat.eq_of_testBit_eq
  intro j
  rw [Nat.testBit_land, Nat.testBit_land, Nat.testBit_shiftRight, Nat.testBit_shiftRight,
    Nat.testBit_xor, Nat.testBit_two_pow_sub_one]
  rcases lt_or_ge j 48 with h | h
  · rw [Nat.testBit_two_pow]
    have hne : ¬(63 = i + j) := by omega
    simp [hne]
  · have : ¬(j < 48) := by omega
    simp [this]

theorem foldl_encRound_congr (k1 k2 : Nat) (l : List Nat) :
    (∀ i ∈ l, DES.subkey k1 i = DES.subkey k2 i) →
    ∀ st : Nat × Nat, l.foldl (DES.encRound k1) st = l.foldl (DES.encRound k2) st := by
  induction l with
  | nil => intro _ st; rw [List.foldl_nil, List.foldl_nil]
  | cons a l ih =>
    intro h st
    rw [List.foldl_cons, List.foldl_cons]
    have ha : DES.encRound k1 st a = DES.encRound k2 st a := by
      unfold DES.encRound
      rw [h a (List.mem_cons_self a l)]
    rw [ha]
    exact ih (fun i hi => h i (List.mem_cons_of_mem a hi)) _

/-- C10: flipping bit 63 of the key never changes the ciphertext, because
every subkey (key shifted right i, masked to 48 bits, i = 0..15) only reads
key bits 0..62. -/
theorem des_encode_ignores_key_msb (key p : Nat) (hk : key < 2 ^ 64) (hp : p < 2 ^ 64) :
    DES.encode key p = DES.encode (key ^^^ 2 ^ 63) p := by
  simp only [DES.encode]
  rw [foldl_encRound_congr (key ^^^ 2 ^ 63) key (List.range 16)
    (fun i hi => subkey_flip_msb key i (List.mem_range.mp hi))]

/-- C10 witness at a concrete key and block. -/
theorem des_encode_ignores_key_msb_witness :
    DES.encode 5 9 = DES.encode (5 ^^^ 2 ^ 63) 9 :=
  des_encode_ignores_key_msb 5 9 (by norm_num) (by norm_num)

/-! ## Caesar (include/CesarEncryption.h) -/

namespace CesarEncryption

/-- CesarEncryption::encode on one byte: upper-case letters and lower-case
letters shift mod 26 within their range, digits shift mod 10, everything
else passes through. -/
def encodeChar (desplazamiento : Nat) (c : Nat) : Nat :=
  if 65 ≤ c ∧ c ≤ 90 then (c - 65 + desplazamiento) % 26 + 65
  else if 97 ≤ c ∧ c ≤ 122 then (c - 97 + desplazamiento) % 26 + 97
  else if 48 ≤ c ∧ c ≤ 57 then (c - 48 + desplazamiento) % 10 + 48
  else c

/-- CesarEncryption::encode. -/
def encode (texto : List Nat) (desplazamiento : Nat) : List Nat :=
  texto.map (encodeChar desplazamiento)

/-- CesarEncryption::decode: encode with shift 26 - (desplazamiento mod 26). -/
def decode (texto : List Nat) (desplazamiento : Nat) : List Nat :=
  encode texto (26 - desplazamiento % 26)

/-- Decoding undoes encoding on any byte that is not an ASCII digit. -/
theorem encodeChar_roundtrip (k c : Nat) (hc : ¬(48 ≤ c ∧ c ≤ 57)) :
    encodeChar (26 - k % 26) (encodeChar k c) = c := by
  unfold encodeChar
  split_ifs <;> omega

end CesarEncryption

/-- C5: Caesar decode of a Caesar encode under the same shift recovers any
digit-free input, for every shift. -/
theorem cesar_decode_encode : ∀ (t : List Nat), (∀ c ∈ t, ¬(48 ≤ c ∧ c ≤ 57)) → ∀ k : Nat,
    CesarEncryption.decode (CesarEncryption.encode t k) k = t
  | [], _, _ => rfl
  | c :: cs, hd, k => by
    have hc := hd c (List.mem_cons_self c cs)
    have ih := cesar_decode_encode cs (fun x hx => hd x (List.mem_cons_of_mem c hx)) k
    simp only [CesarEncryption.encode, CesarEncryption.decode, List.map_cons] at ih ⊢
    rw [CesarEncryption.encodeChar_roundtrip k c hc, ih]

/-- C5 witness: the spec's scenario 1, shift 3 on a digit-free string. -/
theorem cesar_decode_encode_witness :
    CesarEncryption.decode
      (CesarEncryption.encode [72, 111, 108, 97, 32, 77, 117, 110, 100, 111] 3) 3 =
      [72, 111, 108, 97, 32, 77, 117, 110, 100, 111] :=
  cesar_decode_encode [72, 111, 108, 97, 32, 77, 117, 110, 100, 111] (by decide) 3

/-! ## XOR (include/XOREncoder.h) -/

namespace XOREncoder

/-- The loop of XOREncoder::encode: output byte i is input byte i xor key
byte (i mod key length). -/
def encodeBytes (key : List Nat) : Nat → List Nat → List Nat
  | _, [] => []
  | i, c :: cs => (c ^^^ key.getD (i % key.length) 0) :: encodeBytes key (i + 1) cs

/-- XOREncoder::encode. When the key is empty and the input is not, the
loop evaluates i mod key.size() with key.size() equal to zero, which is
integer division by zero, undefined behaviour in C++; that case is
modelled as none. No validation and no typed error exist in the source. -/
def encode (input key : List Nat) : Option (List Nat) :=
  if key.length = 0 ∧ input.length ≠ 0 then none
  else some (encodeBytes key 0 input)

theorem encodeBytes_involutive (key : List Nat) : ∀ (i : Nat) (input : List Nat),
    encodeBytes key i (encodeBytes key i input) = input
  | _, [] => rfl
  | i, c :: cs => by
    simp only [encodeBytes]
    rw [Nat.xor_cancel_right, encodeBytes_involutive key (i + 1) cs]

end XOREncoder

/-- C4: on an empty key and a non-empty input, XOREncoder::encode runs
into i mod 0 (undefined behaviour, modelled as none); it does not report
an EmptyKey typed error as the claim requires. -/
theorem xor_encode_empty_key_undefined : XOREncoder.encode [65] [] = none := rfl

/-- C7: applying XOREncoder::encode twice with the same non-empty key
returns the original input. -/
theorem xor_encode_self_inverse (input key : List Nat) (hk : key ≠ []) :
    (XOREncoder.encode input key).bind (fun mid => XOREncoder.encode mid key) = some input := by
  have hlen : key.length ≠ 0 := fun h => hk (List.eq_nil_of_length_eq_zero h)
  simp only [XOREncoder.encode, hlen, false_and, if_false]
  show some (XOREncoder.encodeBytes key 0 (XOREncoder.encodeBytes key 0 input)) = some input
  rw [XOREncoder.encodeBytes_involutive]

/-- C7 witness at a concrete input and one-byte key. -/
theorem xor_encode_self_inverse_witness :
    (XOREncoder.encode [72, 105] [107]).bind (fun mid => XOREncoder.encode mid [107]) =
      some [72, 105] :=
  xor_encode_self_inverse [72, 105] [107] (by decide)

/-! ## Vigenere (include/Vigenere.h) -/

namespace Vigenere

/-- std::isalpha under the default C locale on a byte. -/
def isalpha (c : Nat) : Bool :=
  decide ((65 ≤ c ∧ c ≤ 90) ∨ (97 ≤ c ∧ c ≤ 122))

/-- std::islower under the default C locale on a byte. -/
def islower (c : Nat) : Bool :=
  decide (97 ≤ c ∧ c ≤ 122)

/-- std::toupper under the default C locale on a byte. -/
def toupper (c : Nat) : Nat :=
  if 97 ≤ c ∧ c ≤ 122 then c - 32 else c

/-- Vigenere::normalizeKey: keep the alphabetic bytes, upper-cased. -/
def normalizeKey (rawKey : List Nat) : List Nat :=
  (rawKey.filter isalpha).map toupper

inductive VigenereError where
  | emptyKey
deriving DecidableEq

/-- Vigenere::Vigenere: the member is initialised with
normalizeKey(key); the constructor body then tests key.empty() where key
is the constructor PARAMETER, the raw key, which shadows the member of
the same name. -/
def mkVigenere (key : List Nat) : Except VigenereError (List Nat) :=
  let member := normalizeKey key
  if key = [] then Except.error VigenereError.emptyKey else Except.ok member

/-- Shift used at key index i: the key byte at i mod size, minus the code
of the upper-case A. -/
def keyShift (key : List Nat) (i : Nat) : Int :=
  (key.getD (i % key.length) 0 : Int) - 65

/-- Vigenere::encode on one alphabetic byte (int arithmetic, base 97 when
lower case, 65 otherwise). -/
def encodeChar (shift : Int) (c : Nat) : Nat :=
  let base : Int := if islower c then 97 else 65
  (((c : Int) - base + shift) % 26 + base).toNat

/-- Vigenere::decode on one alphabetic byte. -/
def decodeChar (shift : Int) (c : Nat) : Nat :=
  let base : Int := if islower c then 97 else 65
  ((((c : Int) - base) - shift + 26) % 26 + base).toNat

/-- The loop of Vigenere::encode: the key index i advances only on
alphabetic bytes; other bytes pass through. -/
def encodeGo (key : List Nat) : Nat → List Nat → List Nat
  | _, [] => []
  | i, c :: cs =>
    if isalpha c then encodeChar (keyShift key i) c :: encodeGo key (i + 1) cs
    else c :: encodeGo key i cs

/-- The loop of Vigenere::decode, same walk with the decoding step. -/
def decodeGo (key : List Nat) : Nat → List Nat → List Nat
  | _, [] => []
  | i, c :: cs =>
    if isalpha c then decodeChar (keyShift key i) c :: decodeGo key (i + 1) cs
    else c :: decodeGo key i cs

/-- Vigenere::encode. -/
def encode (key text : List Nat) : List Nat := encodeGo key 0 text

/-- Vigenere::decode. -/
def decode (key text : List Nat) : List Nat := decodeGo key 0 text

/-- Every byte of a normalized key is an upper-case letter. -/
theorem normalizeKey_mem (raw : List Nat) : ∀ c ∈ normalizeKey raw, 65 ≤ c ∧ c ≤ 90 := by
  intro c hc
  unfold normalizeKey at hc
  rcases List.mem_map.mp hc with ⟨a, ha, rfl⟩
  have hpa := (List.mem_filter.mp ha).2
  simp only [isalpha, decide_eq_true_eq] at hpa
  unfold toupper
  split_ifs <;> omega

theorem decodeChar_encodeChar (s : Int) (c : Nat) (hc : isalpha c = true)
    (hs : 0 ≤ s ∧ s ≤ 25) : decodeChar s (encodeChar s c) = c := by
  simp only [isalpha, decide_eq_true_eq] at hc
  simp only [encodeChar, decodeChar, islower, decide_eq_true_eq]
  split_ifs <;> omega

theorem isalpha_encodeChar (s : Int) (c : Nat) (hc : isalpha c = true)
    (hs : 0 ≤ s ∧ s ≤ 25) : isalpha (encodeChar s c) = true := by
  simp only [isalpha, decide_eq_true_eq] at hc ⊢
  simp only [encodeChar, islower, decide_eq_true_eq]
  split_ifs <;> omega

theorem keyShift_bounds (key : List Nat) (hk : key ≠ [])
    (hkm : ∀ c ∈ key, 65 ≤ c ∧ c ≤ 90) (i : Nat) :
    0 ≤ keyShift key i ∧ keyShift key i ≤ 25 := by
  unfold keyShift
  have hlen : 0 < key.length := List.length_pos.mpr hk
  have hmem : key.getD (i % key.length) 0 ∈ key := by
    rw [List.getD_eq_getElem _ _ (Nat.mod_lt _ hlen)]
    exact List.getElem_mem _
  have := hkm _ hmem
  omega

theorem decodeGo_encodeGo (key : List Nat) (hk : key ≠ [])
    (hkm : ∀ c ∈ key, 65 ≤ c ∧ c ≤ 90) : ∀ (i : Nat) (text : List Nat),
    decodeGo key i (encodeGo key i text) = text
  | _, [] => rfl
  | i, c :: cs => by
    have hshift := keyShift_bounds key hk hkm i
    by_cases hca : isalpha c = true
    · have ha2 := isalpha_encodeChar (keyShift key i) c hca hshift
      simp only [encodeGo, decodeGo, hca, ha2, if_true]
      rw [decodeChar_encodeChar (keyShift key i) c hca hshift,
        decodeGo_encodeGo key hk hkm (i + 1) cs]
    · have hcb : isalpha c = false := by revert hca; cases isalpha c <;> simp
      simp only [encodeGo, decodeGo, hcb, Bool.false_eq_true, if_false]
      rw [decodeGo_encodeGo key hk hkm i cs]

end Vigenere

/-- C2: constructing a Vigenere with the raw key "123" (which normalizes
to the empty key) does not fail with EmptyKey: the constructor tests the
shadowed raw parameter, so it succeeds and stores an empty key. -/
theorem vigenere_digit_key_constructs :
    Vigenere.mkVigenere [49, 50, 51] = Except.ok [] := rfl

/-- C6: Vigenere decode of Vigenere encode under the same normalized
non-empty key recovers the input exactly; case is preserved and
non-alphabetic bytes pass through with the key index advancing only on
alphabetic bytes, on both passes. -/
theorem vigenere_decode_encode (rawKey text : List Nat)
    (hk : Vigenere.normalizeKey rawKey ≠ []) :
    Vigenere.decode (Vigenere.normalizeKey rawKey)
      (Vigenere.encode (Vigenere.normalizeKey rawKey) text) = text :=
  Vigenere.decodeGo_encodeGo _ hk (Vigenere.normalizeKey_mem rawKey) 0 text

/-- C6 witness: the spec's scenario 6, raw key "Limon!" over a mixed-case
sentence with spaces and punctuation. -/
theorem vigenere_decode_encode_witness :
    Vigenere.decode (Vigenere.normalizeKey [76, 105, 109, 111, 110, 33])
      (Vigenere.encode (Vigenere.normalizeKey [76, 105, 109, 111, 110, 33])
        [65, 116, 97, 113, 117, 101, 32, 97, 108, 32, 97, 109, 97, 110, 101, 99, 101, 114, 46]) =
      [65, 116, 97, 113, 117, 101, 32, 97, 108, 32, 97, 109, 97, 110, 101, 99, 101, 114, 46] :=
  vigenere_decode_encode [76, 105, 109, 111, 110, 33]
    [65, 116, 97, 113, 117, 101, 32, 97, 108, 32, 97, 109, 97, 110, 101, 99, 101, 114, 46]
    (by decide)

/-! ## Substring search (std::string::find over byte lists) -/

/-- Whether w occurs in text at position pos: the next w.length bytes of
text starting at pos equal w. -/
def matchAt (w text : List Nat) (pos : Nat) : Bool :=
  decide ((text.drop pos).take w.length = w)

/-- Offset of the first occurrence of w inside l, none when absent. -/
def findIn (w : List Nat) : List Nat → Option Nat
  | [] => if w = [] then some 0 else none
  | c :: rest =>
    if matchAt w (c :: rest) 0 then some 0
    else (findIn w rest).map (fun q => q + 1)

/-- std::string::find(w, pos): the smallest position at or after pos where
w occurs in text, none in place of npos. -/
def findFrom (text w : List Nat) (pos : Nat) : Option Nat :=
  (findIn w (text.drop pos)).map (fun q => pos + q)

theorem matchAt_drop (w text : List Nat) (pos : Nat) :
    matchAt w (text.drop pos) 0 = matchAt w text pos := by
  simp [matchAt]

theorem matchAt_short (w text : List Nat) (pos : Nat) (hw : 0 < w.length)
    (h : text.length < pos + w.length) : matchAt w text pos = false := by
  simp only [matchAt, decide_eq_false_iff_not]
  intro heq
  have hlen := congrArg List.length heq
  simp [List.length_take, List.length_drop] at hlen
  omega

theorem findIn_short (w : List Nat) : ∀ l : List Nat, l.length < w.length → findIn w l = none
  | [], h => by
    have hw : w ≠ [] := by
      intro he
      subst he
      simp at h
    simp [findIn, hw]
  | c :: rest, h => by
    have hm : matchAt w (c :: rest) 0 = false :=
      matchAt_short w (c :: rest) 0 (by simp at h; omega) (by simp at h ⊢; omega)
    have ih := findIn_short w rest (by simp at h ⊢; omega)
    simp [findIn, hm, ih]

theorem findFrom_oob (text w : List Nat) (pos : Nat) (hw : w ≠ [])
    (h : text.length < pos + w.length) : findFrom text w pos = none := by
  have hw1 : 0 < w.length := List.length_pos.mpr hw
  rw [findFrom, findIn_short w _ (by simp [List.length_drop]; omega)]
  rfl

theorem findFrom_match (text w : List Nat) (pos : Nat)
    (hm : matchAt w text pos = true) (hw : w ≠ []) :
    findFrom text w pos = some pos := by
  have hw1 : 0 < w.length := List.length_pos.mpr hw
  have hlen : pos + w.length ≤ text.length := by
    by_contra hcon
    rw [matchAt_short w text pos hw1 (by omega)] at hm
    exact Bool.false_ne_true hm
  have hne : text.drop pos ≠ [] := by
    intro he
    have := congrArg List.length he
    simp [List.length_drop] at this
    omega
  obtain ⟨c, rest, hcr⟩ := List.exists_cons_of_ne_nil hne
  have hmc : matchAt w (c :: rest) 0 = true := by rw [← hcr, matchAt_drop, hm]
  rw [findFrom, hcr]
  simp [findIn, hmc]

theorem findFrom_no_match (text w : List Nat) (pos : Nat)
    (hm : matchAt w text pos = false) (hw : w ≠ []) :
    findFrom text w pos = findFrom text w (pos + 1) := by
  have hw1 : 0 < w.length := List.length_pos.mpr hw
  cases hdp : text.drop pos with
  | nil =>
    have h1 : text.length ≤ pos := by
      have := congrArg List.length hdp
      simp [List.length_drop] at this
      omega
    rw [findFrom_oob text w pos hw (by omega), findFrom_oob text w (pos + 1) hw (by omega)]
  | cons c rest =>
    have hrest : text.drop (pos + 1) = rest := by
      have h1 : (text.drop pos).drop 1 = text.drop (pos + 1) := List.drop_drop 1 pos text
      rw [hdp] at h1
      simpa using h1.symm
    have hmc : matchAt w (c :: rest) 0 = false := by rw [← hdp, matchAt_drop, hm]
    rw [findFrom, findFrom, hdp, hrest]
    simp only [findIn, hmc, Bool.false_eq_true, if_false, Option.map_map]
    cases findIn w rest <;> simp <;> omega

/-! ## Greedy non-overlapping occurrence count -/

/-- Greedy left-to-right counter of non-overlapping occurrences of w: on a
match, count it and pass over the rest of the matched bytes (the skip
argument); otherwise move one byte. -/
def greedyCountAux (w : List Nat) : Nat → List Nat → Nat
  | _, [] => 0
  | 0, c :: rest =>
    if matchAt w (c :: rest) 0 then 1 + greedyCountAux w (w.length - 1) rest
    else greedyCountAux w 0 rest
  | skip + 1, _ :: rest => greedyCountAux w skip rest

/-- Number of greedy non-overlapping occurrences of w in text. -/
def greedyCount (w text : List Nat) : Nat := greedyCountAux w 0 text

theorem greedyCountAux_skip (w : List Nat) : ∀ (k : Nat) (l : List Nat),
    greedyCountAux w k l = greedyCountAux w 0 (l.drop k)
  | 0, l => by rw [List.drop_zero]
  | k + 1, [] => by simp [greedyCountAux]
  | k + 1, c :: rest => by
    rw [show greedyCountAux w (k + 1) (c :: rest) = greedyCountAux w k rest from rfl,
      greedyCountAux_skip w k rest]
    rfl

theorem greedyCount_short (w : List Nat) : ∀ l : List Nat, l.length < w.length →
    greedyCount w l = 0
  | [], _ => rfl
  | c :: rest, h => by
    have hm : matchAt w (c :: rest) 0 = false :=
      matchAt_short w (c :: rest) 0 (by simp at h; omega) (by simp at h ⊢; omega)
    have ih := greedyCount_short w rest (by simp at h ⊢; omega)
    simp only [greedyCount, greedyCountAux, hm, Bool.false_eq_true, if_false]
    exact ih

/-! ## The fitness scoring loop of Vigenere::fitness -/

/-- The inner while loop of Vigenere::fitness for one word w: find the next
occurrence at or after pos, add the word length, continue right after it.
The loop advances by at least one byte per iteration for the non-empty
table words, so fuel text.length + 1 never runs out. -/
def scoreLoop (text w : List Nat) : Nat → Nat → Nat
  | 0, _ => 0
  | fuel + 1, pos =>
    match findFrom text w pos with
    | none => 0
    | some p => w.length + scoreLoop text w fuel (p + w.length)

/-- The found score equals the word length times the number of greedy
non-overlapping occurrences at or after the position. -/
theorem scoreLoop_eq_greedy (text w : List Nat) (hw : w ≠ []) :
    ∀ n pos fuel, text.length + 1 - pos = n → n ≤ fuel →
    scoreLoop text w fuel pos = w.length * greedyCount w (text.drop pos) := by
  intro n
  induction n using Nat.strong_induction_on with
  | _ n IH =>
    intro pos fuel hn hfuel
    have hw1 : 0 < w.length := List.length_pos.mpr hw
    rcases Nat.lt_or_ge text.length (pos + w.length) with hoob | hle
    · have hf : findFrom text w pos = none := findFrom_oob text w pos hw hoob
      have hz : scoreLoop text w fuel pos = 0 := by
        cases fuel with
        | zero => rfl
        | succ f => simp [scoreLoop, hf]
      rw [hz, greedyCount_short w _ (by simp [List.length_drop]; omega), Nat.mul_zero]
    · have hnpos : 0 < n := by omega
      obtain ⟨f, rfl⟩ : ∃ f, fuel = f + 1 := ⟨fuel - 1, by omega⟩
      have hne : text.drop pos ≠ [] := by
        intro he
        have := congrArg List.length he
        simp [List.length_drop] at this
        omega
      obtain ⟨c, rest, hcr⟩ := List.exists_cons_of_ne_nil hne
      have hrest : rest = text.drop (pos + 1) := by
        have h1 : (text.drop pos).drop 1 = text.drop (pos + 1) := List.drop_drop 1 pos text
        rw [hcr] at h1
        simpa using h1
      by_cases hm : matchAt w text pos = true
      · have hf : findFrom text w pos = some pos := findFrom_match text w pos hm hw
        have hstep : scoreLoop text w (f + 1) pos =
            w.length + scoreLoop text w f (pos + w.length) := by simp [scoreLoop, hf]
        rw [hstep, IH (text.length + 1 - (pos + w.length)) (by omega) _ f rfl (by omega)]
        have hmc : matchAt w (c :: rest) 0 = true := by rw [← hcr, matchAt_drop, hm]
        have hgr : greedyCount w (text.drop pos) =
            1 + greedyCount w (text.drop (pos + w.length)) := by
          rw [hcr]
          simp only [greedyCount, greedyCountAux, hmc, if_true]
          rw [greedyCountAux_skip w (w.length - 1) rest, hrest, List.drop_drop]
          have hidx : pos + 1 + (w.length - 1) = pos + w.length := by omega
          rw [hidx]
        rw [hgr, Nat.mul_add, Nat.mul_one]
      · have hm2 : matchAt w text pos = false := by
          revert hm
          cases matchAt w text pos <;> simp
        have hf : findFrom text w pos = findFrom text w (pos + 1) :=
          findFrom_no_match text w pos hm2 hw
        have hstep : scoreLoop text w (f + 1) pos = scoreLoop text w (f + 1) (pos + 1) := by
          simp only [scoreLoop, hf]
        rw [hstep, IH (n - 1) (by omega) (pos + 1) (f + 1) (by omega) (by omega)]
        have hmc : matchAt w (c :: rest) 0 = false := by rw [← hcr, matchAt_drop, hm2]
        rw [hcr]
        simp only [greedyCount, greedyCountAux, hmc, Bool.false_eq_true, if_false]
        rw [hrest]

namespace Vigenere

/-- The common-words table of Vigenere::fitness, space-wrapped upper-case
Spanish words, as byte lists. -/
def comunes : List (List Nat) :=
  [[32, 68, 69, 32],
   [32, 76, 65, 32],
   [32, 69, 76, 32],
   [32, 81, 85, 69, 32],
   [32, 89, 32],
   [32, 65, 32],
   [32, 69, 78, 32],
   [32, 85, 78, 32],
   [32, 80, 65, 82, 65, 32],
   [32, 67, 79, 78, 32],
   [32, 80, 79, 82, 32],
   [32, 67, 79, 77, 79, 32],
   [32, 83, 85, 32],
   [32, 65, 76, 32],
   [32, 68, 69, 76, 32],
   [32, 76, 79, 83, 32],
   [32, 83, 69, 32],
   [32, 78, 79, 32],
   [32, 77, 65, 83, 32],
   [32, 79, 32],
   [32, 83, 73, 32],
   [32, 89, 65, 32],
   [32, 84, 79, 68, 79, 32],
   [32, 69, 83, 84, 65, 32],
   [32, 72, 65, 89, 32],
   [32, 69, 83, 84, 79, 32],
   [32, 83, 79, 78, 32],
   [32, 84, 73, 69, 78, 69, 32],
   [32, 72, 65, 67, 69, 32],
   [32, 83, 85, 83, 32],
   [32, 86, 73, 68, 65, 32],
   [32, 78, 79, 83, 32],
   [32, 84, 69, 32],
   [32, 76, 79, 32],
   [32, 77, 69, 32],
   [32, 69, 83, 84, 69, 32],
   [32, 69, 83, 65, 32],
   [32, 69, 83, 69, 32],
   [32, 66, 73, 69, 78, 32],
   [32, 77, 85, 89, 32],
   [32, 80, 85, 69, 68, 69, 32],
   [32, 84, 65, 77, 66, 73, 69, 78, 32],
   [32, 65, 85, 78, 32],
   [32, 77, 73, 32],
   [32, 68, 79, 83, 32],
   [32, 85, 78, 79, 32],
   [32, 79, 84, 82, 79, 32],
   [32, 78, 85, 69, 86, 79, 32],
   [32, 83, 73, 78, 32],
   [32, 69, 78, 84, 82, 69, 32],
   [32, 83, 79, 66, 82, 69, 32]]

/-- Vigenere::fitness: for each table word, repeatedly find the next
occurrence in the text as it is and add the word's length (spaces
included), resuming after each found occurrence. The C++ accumulates into
a double; every increment is a word length, so the score is a natural
number. -/
def fitness (text : List Nat) : Nat :=
  comunes.foldl (fun score w => score + scoreLoop text w (text.length + 1) 0) 0

end Vigenere

theorem foldl_add_eq_sum (h : List Nat → Nat) : ∀ (l : List (List Nat)) (init : Nat),
    l.foldl (fun s w => s + h w) init = init + (l.map h).sum
  | [], init => by simp
  | w :: l, init => by
    rw [List.foldl_cons, foldl_add_eq_sum h l (init + h w)]
    simp [List.map_cons, List.sum_cons]
    omega

/-- The C9 claim's fitness: upper-case a copy of the text, surround it
with implicit word boundaries (one space on each side), and add, for each
non-overlapping occurrence of a table word, that word's length. -/
def claimFitness (text : List Nat) : Nat :=
  (Vigenere.comunes.map
    (fun w => w.length * greedyCount w (32 :: (text.map Vigenere.toupper ++ [32])))).sum

/-- C9 counterexample: on the lower-case text "x de y" the source fitness
scores 0 (the table words are upper-case and space-wrapped and the source
neither upper-cases nor pads), while the value described by the claim is
4 for the space-wrapped DE plus 3 for the space-wrapped Y. -/
theorem vigenere_fitness_counterexample :
    Vigenere.fitness [120, 32, 100, 101, 32, 121] = 0 ∧
      claimFitness [120, 32, 100, 101, 32, 121] = 7 := by
  decide

/-- C9 amended: the source fitness equals the sum, over the table words,
of the word's length times the number of greedy non-overlapping
occurrences in the text exactly as given: no case folding and no implicit
word boundaries. -/
theorem vigenere_fitness_eq_occurrence_score (text : List Nat) :
    Vigenere.fitness text =
      (Vigenere.comunes.map (fun w => w.length * greedyCount w text)).sum := by
  have hall : ∀ w ∈ Vigenere.comunes, w ≠ [] := by decide
  rw [Vigenere.fitness,
    foldl_add_eq_sum (fun w => scoreLoop text w (text.length + 1) 0) Vigenere.comunes 0,
    Nat.zero_add]
  have hmap : ∀ w ∈ Vigenere.comunes,
      scoreLoop text w (text.length + 1) 0 = w.length * greedyCount w text := by
    intro w hwmem
    have hres := scoreLoop_eq_greedy text w (hall w hwmem) (text.length + 1 - 0) 0
      (text.length + 1) rfl (by omega)
    simpa using hres
  rw [List.map_congr_left hmap]

/-! ## Caesar frequency-analysis key guess (CesarEncryption.h lines 105-152) -/

namespace CesarEncryption

/-- The letter tally of evaluatePossibleKey: how often letter number i
appears, counting the lower-case byte 97 + i and the upper-case byte
65 + i. -/
def frecuencia (texto : List Nat) (i : Nat) : Nat :=
  (texto.filter (fun c => c == 97 + i || c == 65 + i)).length

/-- The most frequent letter index: the loop starts at index 1 with the
current best 0 and replaces it only on a strictly greater count, so the
first maximum wins. -/
def indiceMax (texto : List Nat) : Nat :=
  (List.range' 1 25).foldl
    (fun acc i => if frecuencia texto i > frecuencia texto acc then i else acc) 0

/-- The ten Spanish reference letters e a o s r n i d l c. -/
def letrasEsp : List Nat := [101, 97, 111, 115, 114, 110, 105, 100, 108, 99]

/-- The fixed word set el de la que en y los se, as byte lists. -/
def comunes : List (List Nat) :=
  [[101, 108], [100, 101], [108, 97], [113, 117, 101],
   [101, 110], [121], [108, 111, 115], [115, 101]]

/-- Candidate shift for a reference letter:
(indiceMax - (letraRef - 97) + 26) mod 26, int arithmetic. -/
def claveFor (iMax letraRef : Nat) : Nat :=
  (((iMax : Int) - ((letraRef : Int) - 97) + 26) % 26).toNat

/-- The score of a decoded candidate: one point for each table word that
occurs somewhere in the decoded text (descifrado.find(palabra) != npos);
a word found many times still counts once. -/
def puntajeFor (descifrado : List Nat) : Int :=
  comunes.foldl (fun s palabra => if (findFrom descifrado palabra 0).isSome then s + 1 else s) 0

/-- CesarEncryption::evaluatePossibleKey: for each reference letter form
the candidate shift, decode under it (encode with 26 - clave), score the
result, and keep the strictly best, starting from (0, -1). The C++ binds
clave and puntaje to locals once per iteration; they are inlined here. -/
def evaluatePossibleKey (texto : List Nat) : Nat :=
  (letrasEsp.foldl
    (fun best letraRef =>
      if puntajeFor (encode texto (26 - claveFor (indiceMax texto) letraRef)) > best.2 then
        (claveFor (indiceMax texto) letraRef,
         puntajeFor (encode texto (26 - claveFor (indiceMax texto) letraRef)))
      else best)
    (0, -1)).1

end CesarEncryption

/-- Maximum of a list of naturals, 0 for the empty list. -/
def maxList (l : List Nat) : Nat := l.foldr max 0

/-- Index of the first occurrence of the maximum of the list. -/
def firstMaxIdx : List Nat → Nat
  | [] => 0
  | x :: xs => if maxList xs > x then 1 + firstMaxIdx xs else 0

/-- Number of positions of text at which w occurs; overlaps allowed. -/
def countOccurrences (text w : List Nat) : Nat :=
  ((List.range text.length).filter (fun p => matchAt w text p)).length

/-- The C8 claim's key guess: the same candidate shifts, each scored by
the TOTAL number of occurrences (substring matches, overlaps allowed) of
the table words in the decoding, highest score returned, first candidate
wins ties. -/
def claimEvaluatePossibleKey (texto : List Nat) : Nat :=
  (CesarEncryption.letrasEsp.map
      (fun r => CesarEncryption.claveFor (CesarEncryption.indiceMax texto) r)).getD
    (firstMaxIdx
      ((CesarEncryption.letrasEsp.map
          (fun r => CesarEncryption.claveFor (CesarEncryption.indiceMax texto) r)).map
        (fun clave => (CesarEncryption.comunes.map
          (fun w => countOccurrences (CesarEncryption.encode texto (26 - clave)) w)).sum))) 0

/-- The amended C8 semantics: the same candidates, each scored by the
NUMBER OF DISTINCT table words present in the decoding (each word counts
at most once), highest score returned, first candidate wins ties. -/
def amendedEvaluatePossibleKey (texto : List Nat) : Nat :=
  (CesarEncryption.letrasEsp.map
      (fun r => CesarEncryption.claveFor (CesarEncryption.indiceMax texto) r)).getD
    (firstMaxIdx
      ((CesarEncryption.letrasEsp.map
          (fun r => CesarEncryption.claveFor (CesarEncryption.indiceMax texto) r)).map
        (fun clave => (CesarEncryption.comunes.filter
          (fun w => (findFrom (CesarEncryption.encode texto (26 - clave)) w 0).isSome)).length))) 0

theorem foldl_count_eq_filter (p : List Nat → Bool) : ∀ (l : List (List Nat)) (init : Int),
    l.foldl (fun s w => if p w then s + 1 else s) init = init + ((l.filter p).length : Int)
  | [], init => by simp
  | w :: l, init => by
    rw [List.foldl_cons]
    by_cases hp : p w
    · rw [if_pos hp, foldl_count_eq_filter p l (init + 1)]
      simp [List.filter_cons, hp]
      omega
    · rw [if_neg hp, foldl_count_eq_filter p l init]
      simp [List.filter_cons, hp]

theorem puntajeFor_eq (d : List Nat) :
    CesarEncryption.puntajeFor d =
      ((CesarEncryption.comunes.filter (fun w => (findFrom d w 0).isSome)).length : Int) := by
  unfold CesarEncryption.puntajeFor
  rw [foldl_count_eq_filter]
  simp

/-- The strict-improvement fold that tracks (best value, best score)
starting from (b, s) returns the value of the first element attaining the
maximum score, whenever some element beats s; otherwise it returns b. -/
theorem foldl_argmax (g f : Nat → Nat) : ∀ (xs : List Nat) (b : Nat) (s : Int),
    (xs.foldl (fun best x => if (f x : Int) > best.2 then (g x, (f x : Int)) else best) (b, s)).1 =
      if xs ≠ [] ∧ s < (maxList (xs.map f) : Int) then
        (xs.map g).getD (firstMaxIdx (xs.map f)) 0
      else b
  | [], b, s => by simp
  | x :: xs, b, s => by
    have hfx0 : ((f x : Nat) : Int) ≥ 0 := Int.natCast_nonneg _
    rw [List.foldl_cons, show ((b, s) : Nat × Int).2 = s from rfl, List.map_cons, List.map_cons]
    have hmax : maxList (f x :: List.map f xs) = max (f x) (maxList (List.map f xs)) := rfl
    have hidx : firstMaxIdx (f x :: List.map f xs) =
        if maxList (List.map f xs) > f x then 1 + firstMaxIdx (List.map f xs) else 0 := rfl
    rw [hmax, hidx]
    by_cases hx : (f x : Int) > s
    · rw [if_pos hx, foldl_argmax g f xs (g x) (f x)]
      by_cases hmt : maxList (List.map f xs) > f x
      · have hxs : xs ≠ [] := by
          intro he
          rw [he] at hmt
          simp [maxList] at hmt
        have hcast : ((f x : Nat) : Int) < (maxList (List.map f xs) : Int) := by
          exact_mod_cast hmt
        have hsm : s < ((max (f x) (maxList (List.map f xs)) : Nat) : Int) := by
          rw [Nat.cast_max]
          omega
        rw [if_pos ⟨hxs, hcast⟩, if_pos hmt, if_pos ⟨List.cons_ne_nil x xs, hsm⟩,
          Nat.add_comm 1, List.getD_cons_succ]
      · have hle : maxList (List.map f xs) ≤ f x := Nat.le_of_not_lt hmt
        have hcon : ¬(xs ≠ [] ∧ ((f x : Nat) : Int) < (maxList (List.map f xs) : Int)) := by
          rintro ⟨h1, h2⟩
          have h3 : f x < maxList (List.map f xs) := by exact_mod_cast h2
          omega
        have hsm : s < ((max (f x) (maxList (List.map f xs)) : Nat) : Int) := by
          rw [Nat.cast_max]
          omega
        rw [if_neg hcon, if_neg hmt, if_pos ⟨List.cons_ne_nil x xs, hsm⟩, List.getD_cons_zero]
    · rw [if_neg hx, foldl_argmax g f xs b s]
      have hxle : (f x : Int) ≤ s := by omega
      by_cases hms : s < (maxList (List.map f xs) : Int)
      · have hxs : xs ≠ [] := by
          intro he
          rw [he] at hms
          simp [maxList] at hms
          omega
        have hmt : maxList (List.map f xs) > f x := by
          have h1 : ((f x : Nat) : Int) < (maxList (List.map f xs) : Int) := by omega
          exact_mod_cast h1
        have hsm : s < ((max (f x) (maxList (List.map f xs)) : Nat) : Int) := by
          rw [Nat.cast_max]
          omega
        rw [if_pos ⟨hxs, hms⟩, if_pos hmt, if_pos ⟨List.cons_ne_nil x xs, hsm⟩,
          Nat.add_comm 1, List.getD_cons_succ]
      · have hc1 : ¬(xs ≠ [] ∧ s < (maxList (List.map f xs) : Int)) := by
          rintro ⟨h1, h2⟩
          exact hms h2
        have hc2 : ¬((x :: xs) ≠ [] ∧
            s < ((max (f x) (maxList (List.map f xs)) : Nat) : Int)) := by
          rintro ⟨h1, h2⟩
          rw [Nat.cast_max] at h2
          omega
        rw [if_neg hc1, if_neg hc2]

set_option maxRecDepth 4000 in
/-- C8 counterexample: on the text "dedededede ip pe" the source returns
the candidate shift 4 (it scores by the number of distinct words present:
the decoding under 4 contains both el and la), while the claim's
occurrence count picks shift 0 (whose decoding contains de five times). -/
theorem cesar_evaluatePossibleKey_counterexample :
    CesarEncryption.evaluatePossibleKey
        [100, 101, 100, 101, 100, 101, 100, 101, 100, 101, 32, 105, 112, 32, 112, 101] = 4 ∧
      claimEvaluatePossibleKey
        [100, 101, 100, 101, 100, 101, 100, 101, 100, 101, 32, 105, 112, 32, 112, 101] = 0 := by
  decide

/-- C8 amended: evaluatePossibleKey scores each candidate by the number of
distinct table words present in its decoding (a word found several times
counts once), and returns the candidate with the highest such score, the
first candidate seen winning ties. -/
theorem cesar_evaluatePossibleKey_amended (texto : List Nat) :
    CesarEncryption.evaluatePossibleKey texto = amendedEvaluatePossibleKey texto := by
  have step :
      CesarEncryption.evaluatePossibleKey texto =
        (CesarEncryption.letrasEsp.foldl
          (fun best r =>
            if (((CesarEncryption.comunes.filter
                  (fun w => (findFrom
                    (CesarEncryption.encode texto
                      (26 - CesarEncryption.claveFor (CesarEncryption.indiceMax texto) r)) w
                    0).isSome)).length : Nat) : Int) > best.2 then
              (CesarEncryption.claveFor (CesarEncryption.indiceMax texto) r,
               (((CesarEncryption.comunes.filter
                  (fun w => (findFrom
                    (CesarEncryption.encode texto
                      (26 - CesarEncryption.claveFor (CesarEncryption.indiceMax texto) r)) w
                    0).isSome)).length : Nat) : Int))
            else best)
          (0, -1)).1 := by
    unfold CesarEncryption.evaluatePossibleKey
    simp only [puntajeFor_eq]
  rw [step,
    foldl_argmax
      (fun r => CesarEncryption.claveFor (CesarEncryption.indiceMax texto) r)
      (fun r => (CesarEncryption.comunes.filter
        (fun w => (findFrom
          (CesarEncryption.encode texto
            (26 - CesarEncryption.claveFor (CesarEncryption.indiceMax texto) r)) w
          0).isSome)).length)
      CesarEncryption.letrasEsp 0 (-1)]
  have hcond : (CesarEncryption.letrasEsp ≠ [] ∧
      (-1 : Int) < (maxList (CesarEncryption.letrasEsp.map
        (fun r => (CesarEncryption.comunes.filter
          (fun w => (findFrom
            (CesarEncryption.encode texto
              (26 - CesarEncryption.claveFor (CesarEncryption.indiceMax texto) r)) w
            0).isSome)).length)) : Int)) := by
    constructor
    · simp [CesarEncryption.letrasEsp]
    · have := Int.natCast_nonneg (maxList (CesarEncryption.letrasEsp.map
        (fun r => (CesarEncryption.comunes.filter
          (fun w => (findFrom
            (CesarEncryption.encode texto
              (26 - CesarEncryption.claveFor (CesarEncryption.indiceMax texto) r)) w
            0).isSome)).length)))
      omega
  rw [if_pos hcond]
  unfold amendedEvaluatePossibleKey
  rw [List.map_map]
  rfl

/-! ## CryptoGenerator (include/CryptoGenerator.h) -/

namespace CryptoGenerator

/-- One lower-case hex digit as its ASCII byte. -/
def hexDigit (n : Nat) : Nat :=
  if n < 10 then 48 + n else 87 + n

/-- CryptoGenerator::toHex: every byte becomes two lower-case hex digits,
zero filled. -/
def toHex : List Nat → List Nat
  | [] => []
  | byte :: rest => hexDigit (byte / 16) :: hexDigit (byte % 16) :: toHex rest

/-- Numeric value of one hex digit byte. On a byte that is no hex digit
the istringstream extraction fails and (since C++11) writes 0; valid
digits, the only bytes toHex produces, parse exactly. -/
def hexVal (c : Nat) : Nat :=
  if 48 ≤ c ∧ c ≤ 57 then c - 48
  else if 97 ≤ c ∧ c ≤ 102 then c - 87
  else if 65 ≤ c ∧ c ≤ 70 then c - 55
  else 0

/-- The pair loop of CryptoGenerator::fromHex: every two bytes parse as
one byte. -/
def fromHexPairs : List Nat → List Nat
  | c1 :: c2 :: rest => (16 * hexVal c1 + hexVal c2) :: fromHexPairs rest
  | _ => []

/-- CryptoGenerator::fromHex: fails on odd length, otherwise parses the
consecutive digit pairs. -/
def fromHex (hex : List Nat) : Option (List Nat) :=
  if hex.length % 2 ≠ 0 then none
  else some (fromHexPairs hex)

/-- The Base64 alphabet: six-bit value to ASCII byte. -/
def b64Char (n : Nat) : Nat :=
  if n < 26 then 65 + n
  else if n < 52 then 97 + (n - 26)
  else if n < 62 then 48 + (n - 52)
  else if n = 62 then 43
  else 47

/-- CryptoGenerator::toBase64: full 3-byte blocks become four alphabet
bytes; a 2-byte tail becomes three bytes and one padding 61; a 1-byte
tail becomes two bytes and two paddings. -/
def toBase64 : List Nat → List Nat
  | b1 :: b2 :: b3 :: rest =>
    b64Char ((((b1 <<< 16) ||| (b2 <<< 8) ||| b3) >>> 18) &&& 0x3F) ::
      b64Char ((((b1 <<< 16) ||| (b2 <<< 8) ||| b3) >>> 12) &&& 0x3F) ::
      b64Char ((((b1 <<< 16) ||| (b2 <<< 8) ||| b3) >>> 6) &&& 0x3F) ::
      b64Char (((b1 <<< 16) ||| (b2 <<< 8) ||| b3) &&& 0x3F) :: toBase64 rest
  | [b1, b2] =>
    [b64Char ((((b1 <<< 16) ||| (b2 <<< 8)) >>> 18) &&& 0x3F),
     b64Char ((((b1 <<< 16) ||| (b2 <<< 8)) >>> 12) &&& 0x3F),
     b64Char ((((b1 <<< 16) ||| (b2 <<< 8)) >>> 6) &&& 0x3F), 61]
  | [b1] =>
    [b64Char (((b1 <<< 16) >>> 18) &&& 0x3F), b64Char (((b1 <<< 16) >>> 12) &&& 0x3F), 61, 61]
  | [] => []

/-- The inner for of CryptoGenerator::fromBase64 gathering one group of up
to four decoded characters: a byte whose table value is 0xFF is consumed
without counting (the j-- continue); any other value is shifted into the
block. The table is the member _decTable, which no code ever initialises;
it is therefore a parameter here, standing for its indeterminate bytes. -/
def b64Chunk (table : Nat → Nat) : Nat → List Nat → Nat → Nat → Nat × Nat × List Nat
  | 0, rest, block, chars => (block, chars, rest)
  | _ + 1, [], block, chars => (block, chars, [])
  | need + 1, c :: rest, block, chars =>
    if table c = 0xFF then b64Chunk table (need + 1) rest block chars
    else b64Chunk table need rest ((block <<< 6) ||| table c) (chars + 1)

/-- Bytes emitted after one chunk: for k = 0 .. chars - 2 the byte
(block shifted right by 8 times (chars - 2 - k)) masked to 8 bits. The
C++ loop bound chars - 1 is an unsigned subtraction: a chunk with
chars = 0 wraps it around and floods the output; that case is modelled as
no bytes and is not exercised below. -/
def b64ChunkBytes (block chars : Nat) : List Nat :=
  (List.range (chars - 1)).map (fun k => (block >>> (8 * (chars - 2 - k))) &&& 0xFF)

/-- The outer while of CryptoGenerator::fromBase64, with fuel: every
iteration consumes at least one input byte, so fuel b64.length suffices. -/
def fromBase64Go (table : Nat → Nat) : Nat → List Nat → List Nat
  | _, [] => []
  | 0, _ :: _ => []
  | fuel + 1, c :: rest =>
    match b64Chunk table 4 (c :: rest) 0 0 with
    | (block, chars, rest2) => b64ChunkBytes block chars ++ fromBase64Go table fuel rest2

/-- CryptoGenerator::fromBase64, parameterised by the contents of the
never-initialised decode table _decTable. -/
def fromBase64 (table : Nat → Nat) (b64 : List Nat) : List Nat :=
  fromBase64Go table b64.length b64

theorem hexVal_hexDigit (n : Nat) (h : n < 16) : hexVal (hexDigit n) = n := by
  unfold hexVal hexDigit
  split_ifs <;> omega

theorem fromHexPairs_toHex : ∀ b : List Nat, (∀ x ∈ b, x < 256) →
    fromHexPairs (toHex b) = b
  | [], _ => rfl
  | byte :: rest, hb => by
    have hbyte := hb byte (List.mem_cons_self byte rest)
    have ih := fromHexPairs_toHex rest (fun x hx => hb x (List.mem_cons_of_mem byte hx))
    simp only [toHex, fromHexPairs, ih]
    rw [hexVal_hexDigit _ (by omega), hexVal_hexDigit _ (by omega)]
    have hsplit : 16 * (byte / 16) + byte % 16 = byte := by omega
    rw [hsplit]

theorem toHex_length : ∀ b : List Nat, (toHex b).length = 2 * b.length
  | [] => rfl
  | _ :: rest => by
    simp only [toHex, List.length_cons, toHex_length rest]
    omega

end CryptoGenerator

/-- The hex half of the C3 round trip does hold on the code: toHex
produces an even number of valid digits and fromHex parses them back. -/
theorem crypto_fromHex_toHex (b : List Nat) (hb : ∀ x ∈ b, x < 256) :
    CryptoGenerator.fromHex (CryptoGenerator.toHex b) = some b := by
  unfold CryptoGenerator.fromHex
  rw [CryptoGenerator.toHex_length]
  simp [Nat.mul_mod_right, CryptoGenerator.fromHexPairs_toHex b hb]

/-- C3: fromBase64 reads the never-initialised member _decTable. Under
one possible content of that indeterminate table (all bytes zero) the
padding bytes decode as data: the encoding of the single byte 0 comes
back as three bytes, so the Base64 half of the round-trip claim fails on
the code as written. -/
theorem crypto_base64_roundtrip_broken :
    CryptoGenerator.fromBase64 (fun _ => 0) (CryptoGenerator.toBase64 [0]) = [0, 0, 0] ∧
      ([0, 0, 0] : List Nat) ≠ [0] := by
  decide

end GoingSecure
